import Mathlib

/-!
Verification of the block-editor core: patch engine, command factory,
branching history tree, validator and persistence envelope.

The definitions below are a shallow embedding of the TypeScript sources
(`src/app/editor/lib/...`, `lib/editor/persistence.ts`, `lib/editor/validation.ts`).
JavaScript in-place mutation through array references returned by
`getParentArray` is rendered as explicit functional update of the document;
`structuredClone` is the identity on pure values.  Numeric fields keep the
range that the code and its zod schemas actually use: child indices and path
entries are naturals (`PathSchema` is `z.number().int().min(0)`), while
`currentIndex`, `parentIndex`, cursor selections and the storage version are
integers, since `-1` and negative corrupted values are representable there.
-/

namespace Editor

/-- `BlockType` from `types.ts`: `'text' | 'todo'`. -/
inductive BlockType where
  | text
  | todo
deriving Repr, DecidableEq

/-- `Block` from `types.ts`: `{id, type, content, done?, children?, autoFocus?}`.
`children` is `Option (List Block)` because an absent `children` key is
distinguishable from an empty array (`getParentArray` materialises `[]`). -/
inductive Block where
  | mk (id : String) (btype : BlockType) (content : String)
       (done : Option Bool) (children : Option (List Block))
       (autoFocus : Option Bool)
deriving Repr

/-- Field accessor for `Block.id`. -/
def Block.id : Block → String
  | .mk i _ _ _ _ _ => i

/-- Field accessor for `Block.type`. -/
def Block.btype : Block → BlockType
  | .mk _ t _ _ _ _ => t

/-- Field accessor for `Block.content`. -/
def Block.content : Block → String
  | .mk _ _ c _ _ _ => c

/-- Field accessor for `Block.done`. -/
def Block.done : Block → Option Bool
  | .mk _ _ _ d _ _ => d

/-- Field accessor for `Block.children`. -/
def Block.children : Block → Option (List Block)
  | .mk _ _ _ _ ch _ => ch

/-- Field accessor for `Block.autoFocus`. -/
def Block.autoFocus : Block → Option Bool
  | .mk _ _ _ _ _ a => a

/-- `BlockArray` from `types.ts`. -/
abbrev BlockArray := List Block

/-- `Path` from `types.ts` (`number[]`; entries are nats per `PathSchema`). -/
abbrev Path := List Nat

/-- `PatchOp` from `types.ts`: the five-way tagged union (the `update` variant
is split on `field` exactly as in the source union). -/
inductive PatchOp where
  | updateContent (path : Path) (value oldValue : String)
  | updateDone (path : Path) (value oldValue : Bool)
  | insert (parentPath : Option Path) (index : Nat) (block : Block)
  | delete (parentPath : Option Path) (index : Nat) (deleted : Block)
  | move (fromParentPath : Option Path) (fromIndex : Nat)
         (toParentPath : Option Path) (toIndex : Nat)
deriving Repr

/-- `Patch` from `types.ts`: `{ops: PatchOp[]}`. -/
structure Patch where
  ops : List PatchOp
deriving Repr

/-- `Command` from `types.ts`: `{forward, inverse}`. -/
structure Command where
  forward : Patch
  inverse : Patch
deriving Repr

/-- `pathEquals` from `utils.ts`: null equals only null, otherwise
element-wise comparison. -/
def pathEquals : Option Path → Option Path → Bool
  | none, none => true
  | none, some _ => false
  | some _, none => false
  | some p1, some p2 => p1 = p2

/-- `getBlockAtPath` from `utils.ts`: walk the full path through `children`;
the empty path is invalid. -/
def getBlockAtPath (doc : BlockArray) : Path → Option Block
  | [] => none
  | [i] => doc[i]?
  | i :: j :: rest =>
    match doc[i]? with
    | none => none
    | some b =>
      match b.children with
      | none => none
      | some cl => getBlockAtPath cl (j :: rest)

/-- Worker for the non-empty-path walk of `getParentArray` from `utils.ts`:
the final step yields `children` with `children ??= []` materialised. -/
def getParentArrayAux (blocks : BlockArray) (i : Nat) :
    List Nat → Option BlockArray
  | [] =>
    match blocks[i]? with
    | none => none
    | some b => some (b.children.getD [])
  | j :: rest =>
    match blocks[i]? with
    | none => none
    | some b =>
      match b.children with
      | none => none
      | some cl => getParentArrayAux cl j rest

/-- Read-only view of `getParentArray` from `utils.ts`: resolves the parent
array addressed by `path` (null/empty path is the root array); at the final
addressed block an absent `children` is seen as `[]` (the source materialises
`children ??= []` there). Returns `none` where the source returns `null`. -/
def getParentArray (doc : BlockArray) : Option Path → Option BlockArray
  | none => some doc
  | some [] => some doc
  | some (i :: rest) => getParentArrayAux doc i rest

/-- Worker for `modifyParentArray`, mirroring `getParentArrayAux` with the
resolved array replaced by its image under `f`. -/
def modifyParentArrayAux (blocks : BlockArray) (i : Nat) :
    List Nat → (BlockArray → BlockArray) → Option BlockArray
  | [], f =>
    match blocks[i]? with
    | none => none
    | some (.mk bid t c d ch a) =>
      some (blocks.set i (.mk bid t c d (some (f (ch.getD []))) a))
  | j :: rest, f =>
    match blocks[i]? with
    | none => none
    | some (.mk bid t c d ch a) =>
      match ch with
      | none => none
      | some cl =>
        match modifyParentArrayAux cl j rest f with
        | none => none
        | some cl2 => some (blocks.set i (.mk bid t c d (some cl2) a))

/-- Functional rendering of mutating the array reference returned by
`getParentArray`: replaces the addressed parent array `arr` by `f arr`,
materialising `children ??= []` on the final addressed block exactly as the
source does. `none` when `getParentArray` would return `null` (in which case
the document is untouched). -/
def modifyParentArray (doc : BlockArray) (p : Option Path)
    (f : BlockArray → BlockArray) : Option BlockArray :=
  match p with
  | none => some (f doc)
  | some [] => some (f doc)
  | some (i :: rest) => modifyParentArrayAux doc i rest f

/-- Functional rendering of mutating the block returned by `getBlockAtPath`
(used by `applyUpdateOp`): resolution failure leaves the document unchanged. -/
def updateBlockAtPath (doc : BlockArray) (p : Path) (g : Block → Block) :
    BlockArray :=
  match p with
  | [] => doc
  | [i] =>
    match doc[i]? with
    | none => doc
    | some b => doc.set i (g b)
  | i :: j :: rest =>
    match doc[i]? with
    | none => doc
    | some (.mk bid t c d ch a) =>
      match ch with
      | none => doc
      | some cl =>
        doc.set i (.mk bid t c d (some (updateBlockAtPath cl (j :: rest) g)) a)

/-- `splice(index, 0, x)`: JavaScript clamps an index past the end to an
append; `take`/`drop` give exactly that clamping. -/
def spliceInsert (arr : BlockArray) (index : Nat) (x : Block) : BlockArray :=
  arr.take index ++ x :: arr.drop index

/-- `splice(index, 1)`: removes the element at `index` when present,
otherwise no change (`List.eraseIdx` has exactly that behaviour). -/
def spliceRemove (arr : BlockArray) (index : Nat) : BlockArray :=
  arr.eraseIdx index

/-- `applyUpdateOp` from `patches.ts`: set one scalar field of the block at
`op.path`; silent no-op when the path does not resolve. -/
def applyUpdateContentOp (doc : BlockArray) (path : Path) (value : String) :
    BlockArray :=
  updateBlockAtPath doc path fun
    | .mk bid t _ d ch a => .mk bid t value d ch a

/-- `applyUpdateOp` from `patches.ts`, `field = 'done'` branch. -/
def applyUpdateDoneOp (doc : BlockArray) (path : Path) (value : Bool) :
    BlockArray :=
  updateBlockAtPath doc path fun
    | .mk bid t c _ ch a => .mk bid t c (some value) ch a

/-- `applyInsertOp` from `patches.ts`: splice a clone of `op.block` into the
resolved parent array; no-op when the parent does not resolve. -/
def applyInsertOp (doc : BlockArray) (parentPath : Option Path) (index : Nat)
    (block : Block) : BlockArray :=
  (modifyParentArray doc parentPath (fun arr => spliceInsert arr index block)).getD doc

/-- `applyDeleteOp` from `patches.ts`: splice out one element of the resolved
parent array; no-op when the parent does not resolve. -/
def applyDeleteOp (doc : BlockArray) (parentPath : Option Path) (index : Nat) :
    BlockArray :=
  (modifyParentArray doc parentPath (fun arr => spliceRemove arr index)).getD doc

/-- `applyMoveOp` from `patches.ts`.  The source resolves the from-parent
(materialising `children ??= []`), early-returns when the from side or
`fromIndex` is missing (the materialisation stays), removes the block, adjusts
the destination index for a same-parent downward move, then resolves the
to-parent against the already-mutated document and inserts there; if the
to-parent does not resolve the removed block is not reinserted. -/
def applyMoveOp (doc : BlockArray) (fromParentPath : Option Path)
    (fromIndex : Nat) (toParentPath : Option Path) (toIndex : Nat) :
    BlockArray :=
  match getParentArray doc fromParentPath with
  | none => doc
  | some fromArr =>
    match fromArr[fromIndex]? with
    | none => (modifyParentArray doc fromParentPath id).getD doc
    | some blockToMove =>
      let doc2 := (modifyParentArray doc fromParentPath
        (fun arr => spliceRemove arr fromIndex)).getD doc
      let adjustedToIndex :=
        if pathEquals fromParentPath toParentPath ∧ fromIndex < toIndex then
          toIndex - 1
        else toIndex
      match modifyParentArray doc2 toParentPath
        (fun arr => spliceInsert arr adjustedToIndex blockToMove) with
      | none => doc2
      | some doc3 => doc3

/-- One step of the `switch` in `applyPatch` from `patches.ts`. -/
def applyOp (doc : BlockArray) : PatchOp → BlockArray
  | .updateContent path value _ => applyUpdateContentOp doc path value
  | .updateDone path value _ => applyUpdateDoneOp doc path value
  | .insert parentPath index block => applyInsertOp doc parentPath index block
  | .delete parentPath index _ => applyDeleteOp doc parentPath index
  | .move fp fi tp ti => applyMoveOp doc fp fi tp ti

/-- `applyPatch` from `patches.ts`: deep-copy the document (identity on pure
values) and apply each op in order, later ops seeing earlier effects. -/
def applyPatch (doc : BlockArray) (patch : Patch) : BlockArray :=
  patch.ops.foldl applyOp doc

/-! ### Tree utilities (`utils.ts`) -/

/-- `isTodoBlock` from `utils.ts`. -/
def isTodoBlock (block : Block) : Bool :=
  block.btype = .todo

/-- `createBlock` from `utils.ts`.  `generateId()` draws a fresh UUID from
the environment; the embedding receives that id as the `newId` argument. -/
def createBlock (newId : String) (btype : BlockType) (content : String := "")
    (autoFocus : Bool := false) : Block :=
  .mk newId btype content
    (if btype = .todo then some false else none)
    none
    (if autoFocus then some true else none)

/-- `findBlockById` from `utils.ts`: depth-first pre-order search. -/
def findBlockById : BlockArray → String → Option Block
  | [], _ => none
  | .mk i t c d ch a :: rest, blockId =>
    if i = blockId then some (.mk i t c d ch a)
    else
      match (match ch with
             | some cl => findBlockById cl blockId
             | none => none) with
      | some found => some found
      | none => findBlockById rest blockId

/-! ### Command factory (`commands.ts`) -/

/-- `updateContentCommand` from `commands.ts`. -/
def updateContentCommand (doc : BlockArray) (path : Path) (newContent : String) :
    Option Command :=
  match getBlockAtPath doc path with
  | none => none
  | some block =>
    some ⟨⟨[.updateContent path newContent block.content]⟩,
          ⟨[.updateContent path block.content newContent]⟩⟩

/-- `toggleTodoCommand` from `commands.ts`: fails unless the block exists and
is a todo; an absent `done` counts as `false`. -/
def toggleTodoCommand (doc : BlockArray) (path : Path) : Option Command :=
  match getBlockAtPath doc path with
  | none => none
  | some block =>
    if !isTodoBlock block then none
    else
      let currentDone := block.done.getD false
      let newDone := !currentDone
      some ⟨⟨[.updateDone path newDone currentDone]⟩,
            ⟨[.updateDone path currentDone newDone]⟩⟩

/-- `insertBlockCommand` from `commands.ts`: makes a fresh block (new UUID
passed in as `newId`), sets its `autoFocus` flag, and pairs an insert with a
delete of the same block. -/
def insertBlockCommand (newId : String) (parentPath : Option Path) (index : Nat)
    (btype : BlockType) : Command :=
  let newBlock :=
    match createBlock newId btype with
    | .mk i t c d ch _ => Block.mk i t c d ch (some true)
  ⟨⟨[.insert parentPath index newBlock]⟩,
   ⟨[.delete parentPath index newBlock]⟩⟩

/-- `deleteBlockCommand` from `commands.ts`: fails when the parent array or
the indexed block is missing; captures the removed subtree for the inverse. -/
def deleteBlockCommand (doc : BlockArray) (parentPath : Option Path)
    (index : Nat) : Option Command :=
  match getParentArray doc parentPath with
  | none => none
  | some parent =>
    match parent[index]? with
    | none => none
    | some deletedBlock =>
      some ⟨⟨[.delete parentPath index deletedBlock]⟩,
            ⟨[.insert parentPath index deletedBlock]⟩⟩

/-- `moveBlockCommand` from `commands.ts`: always succeeds; the inverse swaps
the from and to sides verbatim. -/
def moveBlockCommand (fromParentPath : Option Path) (fromIndex : Nat)
    (toParentPath : Option Path) (toIndex : Nat) : Command :=
  ⟨⟨[.move fromParentPath fromIndex toParentPath toIndex]⟩,
   ⟨[.move toParentPath toIndex fromParentPath fromIndex]⟩⟩

/-! ### History tree (`history-tree.ts` and `useHistoryTree.ts`) -/

/-- `HistoryNode` from `types.ts`.  `parentIndex` is `number | null` and
`branches` is `number[]`; both are embedded as integers so corrupted
(negative) persisted values remain representable. -/
structure HistoryNode where
  command : Command
  parentIndex : Option Int
  branches : List Int
  timestamp : Int
deriving Repr

/-- JavaScript array indexing `nodes[i]` for a possibly-negative index:
`undefined` (here `none`) when out of range. -/
def getNodeAt (nodes : List HistoryNode) (i : Int) : Option HistoryNode :=
  if 0 ≤ i then nodes[i.toNat]? else none

/-- `getRootNodeIndices` from `history-tree.ts`: indices of nodes with
`parentIndex === null`, via map-to-`-1`-then-filter exactly as the source. -/
def getRootNodeIndices (historyNodes : List HistoryNode) : List Int :=
  (historyNodes.enum.map
    (fun p => if p.2.parentIndex = none then (p.1 : Int) else -1)).filter
    (fun idx => idx ≠ -1)

/-- `getRedoBranches` from `history-tree.ts`: branches of the current node,
or all root nodes at the initial position. -/
def getRedoBranches (historyNodes : List HistoryNode) (currentIndex : Int) :
    List Int :=
  if 0 ≤ currentIndex then
    match getNodeAt historyNodes currentIndex with
    | some currentNode => currentNode.branches
    | none => []
  else
    getRootNodeIndices historyNodes

/-- `canUndo` from `history-tree.ts`. -/
def canUndo (currentIndex : Int) : Bool :=
  0 ≤ currentIndex

/-- `canRedo` from `history-tree.ts`. -/
def canRedo (historyNodes : List HistoryNode) (currentIndex : Int) : Bool :=
  (getRedoBranches historyNodes currentIndex).length > 0

/-- `addHistoryNode` from `history-tree.ts`: append a node parented at the
current position and record it in the parent's `branches`.  `Date.now()` is
taken as the `now` argument.  When `currentIndex ≥ 0` but no such node exists
the source dereferences `undefined` and throws; that branch (unreachable in
any session, see the invariant theorems) is embedded as leaving the array
unchanged before the append. -/
def addHistoryNode (historyNodes : List HistoryNode) (currentIndex : Int)
    (command : Command) (now : Int) : List HistoryNode × Int :=
  let newNode : HistoryNode :=
    ⟨command, if 0 ≤ currentIndex then some currentIndex else none, [], now⟩
  let updatedNodes :=
    if 0 ≤ currentIndex then
      match historyNodes[currentIndex.toNat]? with
      | some cur =>
        historyNodes.set currentIndex.toNat
          { cur with branches := cur.branches ++ [(historyNodes.length : Int)] }
      | none => historyNodes
    else historyNodes
  (updatedNodes ++ [newNode], (historyNodes.length : Int))

/-- `getUndoTargetIndex` from `history-tree.ts`. -/
def getUndoTargetIndex (historyNodes : List HistoryNode) (currentIndex : Int) :
    Int :=
  if currentIndex < 0 then -1
  else
    match getNodeAt historyNodes currentIndex with
    | some currentNode => currentNode.parentIndex.getD (-1)
    | none => -1

/-- `getRedoTargetIndex` from `history-tree.ts`: `-1` when there are no
candidates; a provided `nodeIndex` naming any existing node wins; otherwise
the most recent candidate, provided its node exists. -/
def getRedoTargetIndex (historyNodes : List HistoryNode) (currentIndex : Int)
    (nodeIndex : Option Int) : Int :=
  let branchIndices := getRedoBranches historyNodes currentIndex
  if branchIndices.length = 0 then -1
  else
    let fallback :=
      let targetIndex := branchIndices.getLast?.getD (-1)
      if (getNodeAt historyNodes targetIndex).isSome then targetIndex else -1
    match nodeIndex with
    | some n => if (getNodeAt historyNodes n).isSome then n else fallback
    | none => fallback

/-- The session state of `useHistoryTree`: the three `useState` cells. -/
structure HistoryTreeState where
  doc : BlockArray
  historyNodes : List HistoryNode
  currentIndex : Int
deriving Repr

/-- `execute` from `useHistoryTree.ts`: no-op on a null command, otherwise
apply the forward patch and record the command as a new history node. -/
def execute (s : HistoryTreeState) (command : Option Command) (now : Int) :
    HistoryTreeState :=
  match command with
  | none => s
  | some cmd =>
    let newDoc := applyPatch s.doc cmd.forward
    let r := addHistoryNode s.historyNodes s.currentIndex cmd now
    ⟨newDoc, r.1, r.2⟩

/-- `undo` from `useHistoryTree.ts`: no-op at the initial position, otherwise
apply the current node's inverse patch and move to its parent.  The source
throws when `currentIndex ≥ 0` names no node (unreachable in any session);
that branch is embedded as a no-op. -/
def undo (s : HistoryTreeState) : HistoryTreeState :=
  if s.currentIndex < 0 then s
  else
    match getNodeAt s.historyNodes s.currentIndex with
    | none => s
    | some node =>
      ⟨applyPatch s.doc node.command.inverse, s.historyNodes,
       getUndoTargetIndex s.historyNodes s.currentIndex⟩

/-- `redo` from `useHistoryTree.ts`: no-op when `getRedoTargetIndex` yields
`-1`, otherwise apply the target node's forward patch and move there.
`getRedoTargetIndex` only returns `-1` or the index of an existing node, so
the residual `none` branch is unreachable. -/
def redo (s : HistoryTreeState) (nodeIndex : Option Int) : HistoryTreeState :=
  if getRedoTargetIndex s.historyNodes s.currentIndex nodeIndex = -1 then s
  else
    match getNodeAt s.historyNodes
        (getRedoTargetIndex s.historyNodes s.currentIndex nodeIndex) with
    | none => s
    | some node =>
      ⟨applyPatch s.doc node.command.forward, s.historyNodes,
       getRedoTargetIndex s.historyNodes s.currentIndex nodeIndex⟩

/-- One user-visible history-tree call, for reasoning about arbitrary
sequences of `execute`/`undo`/`redo`. -/
inductive HOp where
  | exec (command : Option Command) (now : Int)
  | und
  | red (nodeIndex : Option Int)

/-- Run one history-tree call. -/
def stepH (s : HistoryTreeState) : HOp → HistoryTreeState
  | .exec command now => execute s command now
  | .und => undo s
  | .red nodeIndex => redo s nodeIndex

/-- Run a sequence of history-tree calls. -/
def runH (s : HistoryTreeState) (ops : List HOp) : HistoryTreeState :=
  ops.foldl stepH s

/-- The initial session state: initial document, empty history,
`currentIndex = -1`. -/
def initialState (doc : BlockArray) : HistoryTreeState :=
  ⟨doc, [], -1⟩

/-- Branch invariant: every entry of a node's `branches` names an existing
node whose `parentIndex` points back at the owner. -/
def branchInvariant (nodes : List HistoryNode) : Prop :=
  ∀ (p : Nat) (np : HistoryNode), nodes[p]? = some np →
    ∀ b ∈ np.branches, ∃ nb, getNodeAt nodes b = some nb ∧
      nb.parentIndex = some (p : Int)

/-- Acyclicity: every `parentIndex` is null or strictly smaller than the
owning node's index. -/
def parentsAcyclic (nodes : List HistoryNode) : Prop :=
  ∀ (i : Nat) (ni : HistoryNode), nodes[i]? = some ni →
    ni.parentIndex = none ∨ ∃ q, ni.parentIndex = some q ∧ q < (i : Int)

/-- Strengthening of `parentsAcyclic` maintained by the operations: parent
indices are additionally non-negative. -/
def parentsValid (nodes : List HistoryNode) : Prop :=
  ∀ (i : Nat) (ni : HistoryNode), nodes[i]? = some ni →
    ni.parentIndex = none ∨
      ∃ q, ni.parentIndex = some q ∧ 0 ≤ q ∧ q < (i : Int)

/-- Full session invariant: bounds on `currentIndex` plus the two structural
node invariants. -/
def sessionInvariant (s : HistoryTreeState) : Prop :=
  (-1 ≤ s.currentIndex ∧ s.currentIndex < (s.historyNodes.length : Int)) ∧
    parentsValid s.historyNodes ∧ branchInvariant s.historyNodes

/-! ### Validator (`validation.ts`) -/

/-- `CursorPosition` from `types.ts` (the non-null payload; the nullable
wrapper is `Option CursorPosition`).  Selections are `number`s, embedded as
integers so negative corrupted values are representable. -/
structure CursorPosition where
  blockId : String
  selectionStart : Int
  selectionEnd : Int
deriving Repr, DecidableEq

/-- The `type` field of `ValidationError` from `validation.ts`. -/
inductive ValidationErrorType where
  | duplicate_id
  | invalid_block
  | invalid_history
  | invalid_cursor
  | orphaned_parent
  | schema_error
deriving Repr, DecidableEq

/-- `ValidationError` from `validation.ts` (the TS field `type` is embedded
as `etype`; the free-form `details` payload is metadata and is omitted). -/
structure ValidationError where
  etype : ValidationErrorType
  message : String
deriving Repr, DecidableEq

/-- `ValidationResult` from `validation.ts`. -/
structure ValidationResult where
  isValid : Bool
  errors : List ValidationError
deriving Repr, DecidableEq

/-- The issue list produced by `CursorPositionSchema.safeParse` on a non-null
cursor (`zodErrorToValidationErrors` turns each zod issue into one
`schema_error`): `blockId` must be non-empty and both selections must be
non-negative integers. -/
def cursorSchemaIssues (c : CursorPosition) : List ValidationError :=
  (if c.blockId = "" then
    [⟨.schema_error, "String must contain at least 1 character(s)"⟩] else []) ++
  (if c.selectionStart < 0 then
    [⟨.schema_error, "Number must be greater than or equal to 0"⟩] else []) ++
  (if c.selectionEnd < 0 then
    [⟨.schema_error, "Number must be greater than or equal to 0"⟩] else [])

/-- The selection-range errors accumulated by `validateCursor` once the
referenced block has been found (the three `errors.push` sites). -/
def cursorBoundErrors (c : CursorPosition) (contentLength : Int) :
    List ValidationError :=
  (if c.selectionStart > contentLength then
    [⟨.invalid_cursor, "Cursor selectionStart exceeds content length"⟩]
   else []) ++
  (if c.selectionEnd > contentLength then
    [⟨.invalid_cursor, "Cursor selectionEnd exceeds content length"⟩]
   else []) ++
  (if c.selectionStart > c.selectionEnd then
    [⟨.invalid_cursor,
      "Cursor selectionStart cannot be greater than selectionEnd"⟩]
   else [])

/-- `validateCursor` from `validation.ts`: null is valid; a schema failure
reports only `schema_error`s and returns early; otherwise the block must
exist and the selection must satisfy
`start ≤ end`, `start ≤ content.length`, `end ≤ content.length`. -/
def validateCursor (cursor : Option CursorPosition) (doc : BlockArray) :
    ValidationResult :=
  match cursor with
  | none => ⟨true, []⟩
  | some c =>
    if (cursorSchemaIssues c).isEmpty then
      match findBlockById doc c.blockId with
      | none =>
        ⟨false, [⟨.invalid_cursor,
          "Cursor references non-existent block: " ++ c.blockId⟩]⟩
      | some blockFound =>
        let errors := cursorBoundErrors c blockFound.content.length
        ⟨errors.isEmpty, errors⟩
    else ⟨false, cursorSchemaIssues c⟩

/-! ### Persistence (`persistence.ts`) -/

/-- `BlockSchema` from `types.ts` as a boolean check over a block array:
each `id` must be non-empty (all other fields are well-typed by
construction; `autoFocus` is explicitly allowed by the schema). -/
def blocksSchemaOk : BlockArray → Bool
  | [] => true
  | .mk i _ _ _ ch _ :: rest =>
    (i ≠ "" : Bool) &&
    (match ch with
     | some cl => blocksSchemaOk cl
     | none => true) &&
    blocksSchemaOk rest

/-- `BlockSchema` for a single block. -/
def blockSchemaOk (b : Block) : Bool :=
  blocksSchemaOk [b]

/-- `PatchOpSchema` from `types.ts`: embedded blocks must satisfy
`BlockSchema`; all numeric constraints (`int().min(0)`) hold by the `Nat`
embedding of paths and indices. -/
def patchOpSchemaOk : PatchOp → Bool
  | .insert _ _ block => blockSchemaOk block
  | .delete _ _ deleted => blockSchemaOk deleted
  | _ => true

/-- `HistoryNodeSchema` from `types.ts`: ops schema-valid, branch entries
non-negative, timestamp positive (`parentIndex` is any nullable int). -/
def historyNodeSchemaOk (n : HistoryNode) : Bool :=
  n.command.forward.ops.all patchOpSchemaOk &&
  n.command.inverse.ops.all patchOpSchemaOk &&
  n.branches.all (fun b => 0 ≤ b) &&
  0 < n.timestamp

/-- `CursorPositionSchema` as a boolean check. -/
def cursorSchemaOk : Option CursorPosition → Bool
  | none => true
  | some c => (c.blockId ≠ "" : Bool) && 0 ≤ c.selectionStart && 0 ≤ c.selectionEnd

/-- `PersistedState` from `persistence.ts`. -/
structure PersistedState where
  doc : BlockArray
  historyNodes : List HistoryNode
  currentIndex : Int
  cursor : Option CursorPosition
  version : Int
deriving Repr

/-- `STORAGE_VERSION` from `persistence.ts`. -/
def STORAGE_VERSION : Int := 1

/-- `PersistedStateSchema` from `persistence.ts` as a boolean check
(`version` must be a positive integer). -/
def persistedStateSchemaOk (st : PersistedState) : Bool :=
  blocksSchemaOk st.doc &&
  st.historyNodes.all historyNodeSchemaOk &&
  cursorSchemaOk st.cursor &&
  0 < st.version

/-- `stripTransientFlags` from `persistence.ts` (NOT the `utils.ts` function
of the same name): `const { ...cleanBlock } = block` binds no field before
the rest pattern, so the copy keeps every field — including `autoFocus` —
and only the `children` arrays are rebuilt recursively. -/
def stripTransientFlags : BlockArray → BlockArray
  | [] => []
  | .mk i t c d ch a :: rest =>
    .mk i t c d
      (match ch with
       | some cl => some (stripTransientFlags cl)
       | none => none)
      a :: stripTransientFlags rest

/-- `stripTransientFlagsFromHistory` from `persistence.ts`: rebuilds every
node, replacing blocks embedded in forward `insert` ops and inverse
`insert`/`delete` ops by `{ ...block }` shallow copies — which again keep
every field, `autoFocus` included. -/
def stripTransientFlagsFromHistory (nodes : List HistoryNode) :
    List HistoryNode :=
  nodes.map fun n =>
    { n with
      command :=
        { forward := ⟨n.command.forward.ops.map fun op =>
            match op with
            | .insert pp i block => .insert pp i block
            | op => op⟩,
          inverse := ⟨n.command.inverse.ops.map fun op =>
            match op with
            | .insert pp i block => .insert pp i block
            | .delete pp i deleted => .delete pp i deleted
            | op => op⟩ } }

/-- The envelope that `saveEditorState` from `persistence.ts` serialises to
storage (the `localStorage.setItem` call and logging are the only omitted
effects). -/
def saveEditorState (doc : BlockArray) (historyNodes : List HistoryNode)
    (currentIndex : Int) (cursor : Option CursorPosition) : PersistedState :=
  ⟨stripTransientFlags doc, stripTransientFlagsFromHistory historyNodes,
   currentIndex, cursor, STORAGE_VERSION⟩

/-- `loadEditorState` from `persistence.ts` (the zod-validating variant),
modelled after `JSON.parse`: `stored` is the parsed stored value, `none` when
nothing is stored.  A schema failure or a version mismatch yields `none`. -/
def loadEditorState (stored : Option PersistedState) : Option PersistedState :=
  match stored with
  | none => none
  | some st =>
    if persistedStateSchemaOk st then
      if st.version ≠ STORAGE_VERSION then none else some st
    else none

/-- Observer: does any block of the array, at any depth, carry an `autoFocus`
flag? -/
def containsAutoFocus : BlockArray → Bool
  | [] => false
  | .mk _ _ _ _ ch a :: rest =>
    a.isSome ||
    (match ch with
     | some cl => containsAutoFocus cl
     | none => false) ||
    containsAutoFocus rest

/-! ### Concrete fixtures used by counterexamples and witnesses -/

/-- A three-block root document, first block. -/
def blkA : Block := .mk "a" .text "First" none none none

/-- A three-block root document, second block. -/
def blkB : Block := .mk "b" .text "Second" none none none

/-- A three-block root document, third block. -/
def blkC : Block := .mk "c" .text "Third" none none none

/-- A block carrying the transient `autoFocus` UI flag. -/
def autoFocusBlk : Block := .mk "1" .text "Test" none none (some true)

/-- A history node whose command embeds `autoFocusBlk` in its `insert` and
`delete` ops. -/
def autoFocusNode : HistoryNode :=
  ⟨⟨⟨[.insert none 0 autoFocusBlk]⟩, ⟨[.delete none 0 autoFocusBlk]⟩⟩,
   none, [], 1⟩

/-- A one-block document for cursor validation. -/
def cursorDoc : BlockArray := [.mk "block-1" .text "Test" none none none]

/-- A sample update command on `blkA`. -/
def sampleCmd : Command :=
  ⟨⟨[.updateContent [0] "X" "First"]⟩, ⟨[.updateContent [0] "First" "X"]⟩⟩

/-- A root history node recording `sampleCmd`. -/
def sampleNode : HistoryNode := ⟨sampleCmd, none, [], 5⟩

/-- A session state with one recorded node, positioned on it. -/
def sampleState : HistoryTreeState := ⟨[blkA], [sampleNode], 0⟩

/-- A session state with one recorded node, positioned at the initial
document (`currentIndex = -1`). -/
def rootedState : HistoryTreeState := ⟨[blkA], [sampleNode], -1⟩

end Editor

namespace Editor

/-! ## Theorems -/

/-- Claim C6: for any three-element root array `[A, B, C]`, the forward patch
of `moveBlockCommand(null, 0, null, 2)` produces the order `[B, A, C]` — the
same-parent downward move decrements the destination index by one after
removal before insertion. -/
theorem moveBlockCommand_same_parent_down (A B C : Block) :
    applyPatch [A, B, C] (moveBlockCommand none 0 none 2).forward =
      [B, A, C] := rfl

/-- Claim C1 (failing-input evaluation): the round-trip law fails for
`moveBlockCommand(null, 0, null, 2)` on the document `[blkA, blkB, blkC]`:
applying the forward patch and then the inverse patch produces
`[blkC, blkB, blkA]`, not the original document.  The inverse move reads
`fromIndex = toIndex = 2`, but after the forward move the moved block sits at
the adjusted index 1, so the inverse relocates the wrong block. -/
theorem moveBlockCommand_roundTrip_fails :
    applyPatch (applyPatch [blkA, blkB, blkC]
        (moveBlockCommand none 0 none 2).forward)
      (moveBlockCommand none 0 none 2).inverse = [blkC, blkB, blkA] ∧
    [blkC, blkB, blkA] ≠ [blkA, blkB, blkC] := by
  refine ⟨rfl, fun h => ?_⟩
  have h2 := congrArg (fun l => l.map Block.id) h
  simp [blkA, blkB, blkC, Block.id] at h2

/-- Claim C2 (counterexample): a move op whose from side resolves but whose
`toParentPath` does not resolve is not a silent no-op — it removes the moved
block from the document copy.  On `[blkA]`, moving root index 0 to the
unresolvable parent path `[5]` yields the empty document. -/
theorem movePatch_unresolved_target_drops_block :
    (getParentArray [blkA] none).isSome = true ∧
    getParentArray ([] : BlockArray) (some [5]) = none ∧
    applyPatch [blkA] ⟨[.move none 0 (some [5]) 0]⟩ = [] ∧
    applyPatch [blkA] ⟨[.move none 0 (some [5]) 0]⟩ ≠ [blkA] := by
  refine ⟨rfl, rfl, rfl, fun h => ?_⟩
  have h2 : ([] : BlockArray) = [blkA] := h
  exact List.noConfusion h2

/-- Claim C3: on a state satisfying the `currentIndex` bounds invariant,
`execute(null)` changes nothing; `execute(command)` applies the forward
patch to the document, appends exactly one node whose `parentIndex` is
`currentIndex` when non-negative and null otherwise, appends the new index to
the previous current node's `branches` when one existed, and sets
`currentIndex` to the new node's index (the last index of the grown array). -/
theorem execute_spec (s : HistoryTreeState) (cmd : Command) (now : Int)
    (hlo : -1 ≤ s.currentIndex)
    (hhi : s.currentIndex < (s.historyNodes.length : Int)) :
    (∀ t, execute s none t = s) ∧
    (execute s (some cmd) now).doc = applyPatch s.doc cmd.forward ∧
    (execute s (some cmd) now).historyNodes.length =
      s.historyNodes.length + 1 ∧
    (execute s (some cmd) now).historyNodes.getLast? =
      some ⟨cmd, if 0 ≤ s.currentIndex then some s.currentIndex else none, [],
            now⟩ ∧
    (0 ≤ s.currentIndex →
      (execute s (some cmd) now).historyNodes[s.currentIndex.toNat]? =
        (s.historyNodes[s.currentIndex.toNat]?).map
          (fun nd => { nd with branches :=
            nd.branches ++ [(s.historyNodes.length : Int)] })) ∧
    (execute s (some cmd) now).currentIndex = (s.historyNodes.length : Int) := by
  obtain ⟨doc, nodes, ci⟩ := s
  simp only at hlo hhi ⊢
  by_cases hc : 0 ≤ ci
  · have hlt : ci.toNat < nodes.length := by omega
    have hsome : nodes[ci.toNat]? = some nodes[ci.toNat] :=
      List.getElem?_eq_getElem hlt
    have hexec : execute ⟨doc, nodes, ci⟩ (some cmd) now =
        ⟨applyPatch doc cmd.forward,
         nodes.set ci.toNat
           { nodes[ci.toNat] with branches :=
               nodes[ci.toNat].branches ++ [(nodes.length : Int)] } ++
           [⟨cmd, some ci, [], now⟩],
         (nodes.length : Int)⟩ := by
      simp [execute, addHistoryNode, hc, hsome]
    rw [hexec]
    refine ⟨fun t => rfl, rfl, ?_, ?_, ?_, rfl⟩
    · simp
    · rw [if_pos hc]
      exact List.getLast?_concat _
    · intro _
      rw [List.getElem?_append_left (by simpa using hlt), List.getElem?_set,
          if_pos rfl, if_pos hlt, hsome]
      rfl
  · have hexec : execute ⟨doc, nodes, ci⟩ (some cmd) now =
        ⟨applyPatch doc cmd.forward, nodes ++ [⟨cmd, none, [], now⟩],
         (nodes.length : Int)⟩ := by
      simp [execute, addHistoryNode, hc]
    rw [hexec]
    refine ⟨fun t => rfl, rfl, by simp, ?_, fun h => absurd h hc, rfl⟩
    rw [if_neg hc]
    exact List.getLast?_concat _

/-- Witness for `execute_spec` on a one-node state positioned at node 0. -/
theorem execute_spec_witness :
    ((-1 : Int) ≤ sampleState.currentIndex ∧
      sampleState.currentIndex < (sampleState.historyNodes.length : Int)) ∧
    (execute sampleState (some sampleCmd) 7).currentIndex =
      (sampleState.historyNodes.length : Int) ∧
    (execute sampleState (some sampleCmd) 7).historyNodes.length =
      sampleState.historyNodes.length + 1 :=
  ⟨⟨by decide, by decide⟩,
   (execute_spec sampleState sampleCmd 7 (by decide) (by decide)).2.2.2.2.2,
   (execute_spec sampleState sampleCmd 7 (by decide) (by decide)).2.2.1⟩

/-- Claim C10: `undo` and `redo` leave `historyNodes` entirely unchanged;
`execute` removes no node and modifies no field of any existing node except
appending the new index to the previous current node's `branches`. -/
theorem undo_redo_frame (s : HistoryTreeState)
    (hlo : -1 ≤ s.currentIndex)
    (hhi : s.currentIndex < (s.historyNodes.length : Int)) :
    (undo s).historyNodes = s.historyNodes ∧
    (∀ m, (redo s m).historyNodes = s.historyNodes) ∧
    (∀ (cmd : Command) (now : Int),
      (execute s (some cmd) now).historyNodes.length =
        s.historyNodes.length + 1 ∧
      (∀ i : Nat, i < s.historyNodes.length → (i : Int) ≠ s.currentIndex →
        (execute s (some cmd) now).historyNodes[i]? = s.historyNodes[i]?) ∧
      (0 ≤ s.currentIndex →
        (execute s (some cmd) now).historyNodes[s.currentIndex.toNat]? =
          (s.historyNodes[s.currentIndex.toNat]?).map
            (fun nd => { nd with branches :=
              nd.branches ++ [(s.historyNodes.length : Int)] }))) := by
  obtain ⟨doc, nodes, ci⟩ := s
  simp only at hlo hhi ⊢
  refine ⟨?_, ?_, ?_⟩
  · unfold undo
    split
    · rfl
    · split <;> rfl
  · intro m
    unfold redo
    split
    · rfl
    · split <;> rfl
  · intro cmd now
    by_cases hc : 0 ≤ ci
    · have hlt : ci.toNat < nodes.length := by omega
      have hsome : nodes[ci.toNat]? = some nodes[ci.toNat] :=
        List.getElem?_eq_getElem hlt
      have hexec : execute ⟨doc, nodes, ci⟩ (some cmd) now =
          ⟨applyPatch doc cmd.forward,
           nodes.set ci.toNat
             { nodes[ci.toNat] with branches :=
                 nodes[ci.toNat].branches ++ [(nodes.length : Int)] } ++
             [⟨cmd, some ci, [], now⟩],
           (nodes.length : Int)⟩ := by
        simp [execute, addHistoryNode, hc, hsome]
      rw [hexec]
      refine ⟨by simp, ?_, ?_⟩
      · intro i hi hne
        have hine : ci.toNat ≠ i := by omega
        rw [List.getElem?_append_left (by simpa using hi),
            List.getElem?_set, if_neg hine]
      · intro _
        rw [List.getElem?_append_left (by simpa using hlt),
            List.getElem?_set, if_pos rfl, if_pos hlt, hsome]
        rfl
    · have hexec : execute ⟨doc, nodes, ci⟩ (some cmd) now =
          ⟨applyPatch doc cmd.forward, nodes ++ [⟨cmd, none, [], now⟩],
           (nodes.length : Int)⟩ := by
        simp [execute, addHistoryNode, hc]
      rw [hexec]
      exact ⟨by simp,
        fun i hi _ => List.getElem?_append_left hi,
        fun h => absurd h hc⟩

/-- Witness for `undo_redo_frame` on a one-node state. -/
theorem undo_redo_frame_witness :
    (undo sampleState).historyNodes = sampleState.historyNodes ∧
    (redo sampleState (some 0)).historyNodes = sampleState.historyNodes ∧
    (execute sampleState (some sampleCmd) 7).historyNodes.length =
      sampleState.historyNodes.length + 1 :=
  ⟨(undo_redo_frame sampleState (by decide) (by decide)).1,
   (undo_redo_frame sampleState (by decide) (by decide)).2.1 (some 0),
   ((undo_redo_frame sampleState (by decide) (by decide)).2.2 sampleCmd 7).1⟩

/-- Claim C9: when the redo candidate set is non-empty, `redo(nodeIndex)`
with the index of ANY existing history node jumps to that node and applies
its forward patch, whether or not the node is a candidate; when the candidate
set is empty, `redo` is a no-op regardless of the supplied index. -/
theorem redo_spec (s : HistoryTreeState) (n : Nat) (nd : HistoryNode)
    (hfound : s.historyNodes[n]? = some nd) :
    (getRedoBranches s.historyNodes s.currentIndex ≠ [] →
      redo s (some (n : Int)) =
        ⟨applyPatch s.doc nd.command.forward, s.historyNodes, (n : Int)⟩) ∧
    (getRedoBranches s.historyNodes s.currentIndex = [] →
      ∀ m, redo s m = s) := by
  have hget : getNodeAt s.historyNodes (n : Int) = some nd := by
    simp [getNodeAt, hfound]
  constructor
  · intro hne
    have hlen : ¬ (getRedoBranches s.historyNodes s.currentIndex).length = 0 := by
      simpa [List.length_eq_zero] using hne
    have htgt : getRedoTargetIndex s.historyNodes s.currentIndex
        (some (n : Int)) = (n : Int) := by
      unfold getRedoTargetIndex
      rw [if_neg hlen]
      simp [hget]
    unfold redo
    rw [htgt, if_neg (by omega), hget]
  · intro hemp m
    have hlen : (getRedoBranches s.historyNodes s.currentIndex).length = 0 := by
      simp [hemp]
    have htgt : getRedoTargetIndex s.historyNodes s.currentIndex m = -1 := by
      unfold getRedoTargetIndex
      rw [if_pos hlen]
    unfold redo
    rw [htgt, if_pos rfl]

/-- Witness for `redo_spec`: from the initial position with one root node,
`redo(0)` jumps to node 0; from node 0 (no branches), `redo(0)` is a no-op
even though node 0 exists. -/
theorem redo_spec_witness :
    rootedState.historyNodes[(0 : Nat)]? = some sampleNode ∧
    getRedoBranches rootedState.historyNodes rootedState.currentIndex ≠ [] ∧
    redo rootedState (some ((0 : Nat) : Int)) =
      ⟨applyPatch rootedState.doc sampleNode.command.forward,
       rootedState.historyNodes, ((0 : Nat) : Int)⟩ ∧
    sampleState.historyNodes[(0 : Nat)]? = some sampleNode ∧
    getRedoBranches sampleState.historyNodes sampleState.currentIndex = [] ∧
    redo sampleState (some 0) = sampleState := by
  have h1 := (redo_spec rootedState 0 sampleNode rfl).1 (by decide)
  have h2 := (redo_spec sampleState 0 sampleNode rfl).2 (by decide) (some 0)
  exact ⟨rfl, by decide, h1, rfl, by decide, h2⟩

/-- Setting an index of a list to the element it already holds is the
identity. -/
theorem List.set_self_of_getElem? {α : Type} (l : List α) (i : Nat) (x : α)
    (h : l[i]? = some x) : l.set i x = l := by
  apply List.ext_getElem?
  intro j
  rw [List.getElem?_set]
  split
  · next hij =>
    subst hij
    split
    · exact h.symm
    · next hge =>
      rw [List.getElem?_eq_none (by omega)] at h
      exact Option.noConfusion h
  · rfl

/-- When `getBlockAtPath` fails, the functional update along that path is the
identity (the engine never mutates on a failed walk). -/
theorem updateBlockAtPath_of_not_found (g : Block → Block) :
    ∀ (p : Path) (doc : BlockArray), getBlockAtPath doc p = none →
      updateBlockAtPath doc p g = doc := by
  intro p
  induction p with
  | nil => intro doc _; rfl
  | cons i rest ih =>
    intro doc h
    cases rest with
    | nil =>
      unfold getBlockAtPath at h
      unfold updateBlockAtPath
      cases hdoc : doc[i]? with
      | none => rfl
      | some b => rw [hdoc] at h; exact Option.noConfusion h
    | cons j rest2 =>
      unfold getBlockAtPath at h
      unfold updateBlockAtPath
      cases hdoc : doc[i]? with
      | none => rfl
      | some b =>
        rw [hdoc] at h
        obtain ⟨bid, t, c, d, ch, a⟩ := b
        cases ch with
        | none => rfl
        | some cl =>
          have h2 : getBlockAtPath cl (j :: rest2) = none := h
          show List.set doc i
            (Block.mk bid t c d (some (updateBlockAtPath cl (j :: rest2) g)) a)
              = doc
          rw [ih cl h2]
          exact List.set_self_of_getElem? doc i _ hdoc

/-- When the read-only walk fails, the mutating walk fails as well (and so
makes no change): the two walks test exactly the same conditions. -/
theorem modifyParentArrayAux_of_not_found (f : BlockArray → BlockArray) :
    ∀ (rest : List Nat) (blocks : BlockArray) (i : Nat),
      getParentArrayAux blocks i rest = none →
      modifyParentArrayAux blocks i rest f = none := by
  intro rest
  induction rest with
  | nil =>
    intro blocks i h
    unfold getParentArrayAux at h
    unfold modifyParentArrayAux
    cases hb : blocks[i]? with
    | none => rfl
    | some b => rw [hb] at h; exact Option.noConfusion h
  | cons j rest2 ih =>
    intro blocks i h
    unfold getParentArrayAux at h
    unfold modifyParentArrayAux
    cases hb : blocks[i]? with
    | none => rfl
    | some b =>
      rw [hb] at h
      obtain ⟨bid, t, c, d, ch, a⟩ := b
      cases ch with
      | none => rfl
      | some cl =>
        have h2 : getParentArrayAux cl j rest2 = none := h
        show (match modifyParentArrayAux cl j rest2 f with
              | none => none
              | some cl2 =>
                some (List.set blocks i (Block.mk bid t c d (some cl2) a)))
            = none
        rw [ih cl j h2]

/-- `getParentArray` failure forces `modifyParentArray` failure. -/
theorem modifyParentArray_of_not_found (doc : BlockArray) (pp : Option Path)
    (f : BlockArray → BlockArray) (h : getParentArray doc pp = none) :
    modifyParentArray doc pp f = none := by
  match pp with
  | none => exact Option.noConfusion h
  | some [] => exact Option.noConfusion h
  | some (i :: rest) => exact modifyParentArrayAux_of_not_found f rest doc i h

/-- Claim C2 (amended): `applyPatch` is total (never throws), and an
`update` op whose target path does not resolve, an `insert` or `delete` op
whose parent array does not resolve, and a `move` op whose `fromParentPath`
does not resolve are all silent no-ops on the document.  (A `move` op whose
from side resolves but whose `toParentPath` does not is NOT a no-op — see the
counterexample theorem.) -/
theorem unresolved_ops_are_noops (doc : BlockArray) :
    (∀ (path : Path) (v ov : String), getBlockAtPath doc path = none →
      applyOp doc (.updateContent path v ov) = doc) ∧
    (∀ (path : Path) (v ov : Bool), getBlockAtPath doc path = none →
      applyOp doc (.updateDone path v ov) = doc) ∧
    (∀ (pp : Option Path) (i : Nat) (b : Block),
      getParentArray doc pp = none → applyOp doc (.insert pp i b) = doc) ∧
    (∀ (pp : Option Path) (i : Nat) (b : Block),
      getParentArray doc pp = none → applyOp doc (.delete pp i b) = doc) ∧
    (∀ (fp tp : Option Path) (fi ti : Nat),
      getParentArray doc fp = none → applyOp doc (.move fp fi tp ti) = doc) := by
  refine ⟨?_, ?_, ?_, ?_, ?_⟩
  · intro path v ov h
    exact updateBlockAtPath_of_not_found _ path doc h
  · intro path v ov h
    exact updateBlockAtPath_of_not_found _ path doc h
  · intro pp i b h
    show (modifyParentArray doc pp _).getD doc = doc
    rw [modifyParentArray_of_not_found doc pp _ h]
    rfl
  · intro pp i b h
    show (modifyParentArray doc pp _).getD doc = doc
    rw [modifyParentArray_of_not_found doc pp _ h]
    rfl
  · intro fp tp fi ti h
    show applyMoveOp doc fp fi tp ti = doc
    unfold applyMoveOp
    rw [h]

/-- Witness for `unresolved_ops_are_noops` at concrete unresolvable paths. -/
theorem unresolved_ops_are_noops_witness :
    getBlockAtPath [blkA] [5] = none ∧
    applyOp [blkA] (.updateContent [5] "x" "y") = [blkA] ∧
    getParentArray [blkA] (some [5]) = none ∧
    applyOp [blkA] (.insert (some [5]) 0 blkB) = [blkA] ∧
    applyOp [blkA] (.delete (some [5]) 0 blkB) = [blkA] ∧
    applyOp [blkA] (.move (some [5]) 0 none 0) = [blkA] :=
  ⟨rfl,
   (unresolved_ops_are_noops [blkA]).1 [5] "x" "y" rfl,
   rfl,
   (unresolved_ops_are_noops [blkA]).2.2.1 (some [5]) 0 blkB rfl,
   (unresolved_ops_are_noops [blkA]).2.2.2.1 (some [5]) 0 blkB rfl,
   (unresolved_ops_are_noops [blkA]).2.2.2.2 (some [5]) none 0 0 rfl⟩

/-- Claim C7: loading a stored envelope whose `version` differs from
`STORAGE_VERSION` yields `none`, whether or not the envelope passes schema
validation. -/
theorem loadEditorState_version_gate (st : PersistedState)
    (h : st.version ≠ STORAGE_VERSION) :
    loadEditorState (some st) = none := by
  simp [loadEditorState, h]

/-- Witness for `loadEditorState_version_gate`: a schema-valid envelope with
`version = 2` is rejected. -/
theorem loadEditorState_version_gate_witness :
    persistedStateSchemaOk ⟨[], [], -1, none, 2⟩ = true ∧
    (2 : Int) ≠ STORAGE_VERSION ∧
    loadEditorState (some ⟨[], [], -1, none, 2⟩) = none :=
  ⟨by simp [persistedStateSchemaOk, blocksSchemaOk, cursorSchemaOk],
   by decide,
   loadEditorState_version_gate ⟨[], [], -1, none, 2⟩ (by decide)⟩

/-- Whenever one of the three selection-range checks fires, the accumulated
error list contains an `invalid_cursor` entry. -/
theorem cursorBoundErrors_has_invalid (c : CursorPosition) (L : Int)
    (hbad : c.selectionStart > c.selectionEnd ∨
            c.selectionStart > L ∨ c.selectionEnd > L) :
    ∃ e ∈ cursorBoundErrors c L, e.etype = .invalid_cursor := by
  rcases hbad with h | h | h
  · exact ⟨⟨.invalid_cursor,
      "Cursor selectionStart cannot be greater than selectionEnd"⟩,
      by simp [cursorBoundErrors, h], rfl⟩
  · exact ⟨⟨.invalid_cursor, "Cursor selectionStart exceeds content length"⟩,
      by simp [cursorBoundErrors, h], rfl⟩
  · exact ⟨⟨.invalid_cursor, "Cursor selectionEnd exceeds content length"⟩,
      by simp [cursorBoundErrors, h], rfl⟩

/-- Claim C8 (counterexample): a cursor with `selectionStart > selectionEnd`
whose block resolves can fail validation WITHOUT an `invalid_cursor` error:
when a selection is negative, the zod schema check fails first and
`validateCursor` returns only `schema_error`s. -/
theorem validateCursor_schema_shadows_invalid :
    ((-1 : Int) > -2) ∧
    (findBlockById cursorDoc "block-1").isSome = true ∧
    ((validateCursor (some ⟨"block-1", -1, -2⟩) cursorDoc).errors.map
        ValidationError.etype = [.schema_error, .schema_error]) ∧
    (∀ e ∈ (validateCursor (some ⟨"block-1", -1, -2⟩) cursorDoc).errors,
      e.etype ≠ .invalid_cursor) := by
  refine ⟨by decide, ?_, ?_, ?_⟩
  · simp [findBlockById, cursorDoc]
  · simp [validateCursor, cursorSchemaIssues]
  · simp [validateCursor, cursorSchemaIssues]

/-- Claim C8 (amended): for every non-null, schema-valid cursor (non-empty
`blockId`, non-negative selections) whose block resolves, `validateCursor`
fails with an `invalid_cursor` error whenever `selectionStart > selectionEnd`
or either selection exceeds the block's content length. -/
theorem validateCursor_invalid_cursor (doc : BlockArray) (c : CursorPosition)
    (b : Block)
    (hschema : cursorSchemaIssues c = [])
    (hfound : findBlockById doc c.blockId = some b)
    (hbad : c.selectionStart > c.selectionEnd ∨
            c.selectionStart > (b.content.length : Int) ∨
            c.selectionEnd > (b.content.length : Int)) :
    (validateCursor (some c) doc).isValid = false ∧
    ∃ e ∈ (validateCursor (some c) doc).errors,
      e.etype = .invalid_cursor := by
  have hres : validateCursor (some c) doc =
      ⟨(cursorBoundErrors c b.content.length).isEmpty,
       cursorBoundErrors c b.content.length⟩ := by
    simp only [validateCursor, hschema, hfound, List.isEmpty_nil, if_true]
  obtain ⟨e, hmem, hty⟩ := cursorBoundErrors_has_invalid c b.content.length hbad
  rw [hres]
  refine ⟨?_, ⟨e, hmem, hty⟩⟩
  cases hE : cursorBoundErrors c b.content.length with
  | nil => rw [hE] at hmem; cases hmem
  | cons x xs => rfl

/-- Witness for `validateCursor_invalid_cursor`: the cursor
`{blockId: "block-1", selectionStart: 3, selectionEnd: 1}` on a block of
content length 4 fails with `invalid_cursor`. -/
theorem validateCursor_invalid_cursor_witness :
    cursorSchemaIssues ⟨"block-1", 3, 1⟩ = [] ∧
    findBlockById cursorDoc "block-1" =
      some (.mk "block-1" .text "Test" none none none) ∧
    (validateCursor (some ⟨"block-1", 3, 1⟩) cursorDoc).isValid = false ∧
    ∃ e ∈ (validateCursor (some ⟨"block-1", 3, 1⟩) cursorDoc).errors,
      e.etype = .invalid_cursor := by
  have hfound : findBlockById cursorDoc "block-1" =
      some (.mk "block-1" .text "Test" none none none) := by
    simp [findBlockById, cursorDoc]
  have h := validateCursor_invalid_cursor cursorDoc ⟨"block-1", 3, 1⟩
    (.mk "block-1" .text "Test" none none none) rfl hfound (Or.inl (by decide))
  exact ⟨rfl, hfound, h.1, h.2⟩

/-- Claim C5 (failing-input evaluation): `saveEditorState` does not strip the
`autoFocus` flag.  `stripTransientFlags` in `persistence.ts` destructures
with a bare rest pattern (`const { ...cleanBlock } = block`), so every field
survives: the persisted envelope of a document containing `autoFocusBlk`
still contains its `autoFocus` flag, both in `doc` and in blocks embedded in
`insert`/`delete` ops of history nodes. -/
theorem saveEditorState_keeps_autoFocus :
    (saveEditorState [autoFocusBlk] [] (-1) none).doc = [autoFocusBlk] ∧
    containsAutoFocus (saveEditorState [autoFocusBlk] [] (-1) none).doc = true ∧
    (saveEditorState [] [autoFocusNode] 0 none).historyNodes =
      [autoFocusNode] ∧
    (saveEditorState [autoFocusBlk] [] (-1) none).version = STORAGE_VERSION := by
  refine ⟨?_, ?_, ?_, rfl⟩
  · simp [saveEditorState, stripTransientFlags, autoFocusBlk]
  · simp [saveEditorState, stripTransientFlags, containsAutoFocus, autoFocusBlk]
  · simp [saveEditorState, stripTransientFlagsFromHistory, autoFocusNode]

/-- Executing a command preserves the session invariant: the appended node is
parented at the old current position, the parent's `branches` gain exactly
the new index, and all other nodes are untouched. -/
theorem sessionInvariant_execute (s : HistoryTreeState) (cmd : Command)
    (now : Int) (h : sessionInvariant s) :
    sessionInvariant (execute s (some cmd) now) := by
  obtain ⟨⟨hlo, hhi⟩, hpar, hbr⟩ := h
  obtain ⟨doc, nodes, ci⟩ := s
  simp only at hlo hhi hpar hbr
  by_cases hc : 0 ≤ ci
  · have hlt : ci.toNat < nodes.length := by omega
    have hsome : nodes[ci.toNat]? = some nodes[ci.toNat] :=
      List.getElem?_eq_getElem hlt
    have hexec : execute ⟨doc, nodes, ci⟩ (some cmd) now =
        ⟨applyPatch doc cmd.forward,
         nodes.set ci.toNat
           { nodes[ci.toNat] with branches :=
               nodes[ci.toNat].branches ++ [(nodes.length : Int)] } ++
           [⟨cmd, some ci, [], now⟩],
         (nodes.length : Int)⟩ := by
      simp [execute, addHistoryNode, hc, hsome]
    rw [hexec]
    set cur := nodes[ci.toNat] with hcur
    set cur2 : HistoryNode :=
      { cur with branches := cur.branches ++ [(nodes.length : Int)] } with hcur2
    set nn : HistoryNode := ⟨cmd, some ci, [], now⟩ with hnn
    have hlen2 : (nodes.set ci.toNat cur2).length = nodes.length := by simp
    have hlook : ∀ (k : Nat), k < nodes.length →
        (nodes.set ci.toNat cur2 ++ [nn])[k]? =
          (if ci.toNat = k then some cur2 else nodes[k]?) := by
      intro k hk
      rw [List.getElem?_append_left (by simpa using hk), List.getElem?_set]
      by_cases hek : ci.toNat = k
      · simp [hek, hk]
      · simp [hek]
    have hlookn : (nodes.set ci.toNat cur2 ++ [nn])[nodes.length]? = some nn := by
      rw [List.getElem?_append_right (by simp)]
      simp
    have hlookhi : ∀ k, nodes.length < k →
        (nodes.set ci.toNat cur2 ++ [nn])[k]? = none := by
      intro k hk
      apply List.getElem?_eq_none
      simp
      omega
    refine ⟨⟨by show (-1 : Int) ≤ (nodes.length : Int); omega,
      by show (nodes.length : Int) <
           ((nodes.set ci.toNat cur2 ++ [nn]).length : Int)
         simp⟩, ?_, ?_⟩
    · -- parentsValid
      intro i ni hni
      simp only at hni
      rcases lt_trichotomy i nodes.length with hi | hi | hi
      · rw [hlook i hi] at hni
        by_cases hik : ci.toNat = i
        · rw [if_pos hik] at hni
          have hval : ni = cur2 := (Option.some.inj hni).symm
          subst hval
          have hold := hpar i cur (by rw [← hik]; exact hsome)
          exact hold
        · rw [if_neg hik] at hni
          exact hpar i ni hni
      · subst hi
        rw [hlookn] at hni
        have hval : ni = nn := (Option.some.inj hni).symm
        subst hval
        exact Or.inr ⟨ci, rfl, hc, by omega⟩
      · rw [hlookhi i hi] at hni
        exact Option.noConfusion hni
    · -- branchInvariant
      have hpres : ∀ (b : Int) (nb : HistoryNode), getNodeAt nodes b = some nb →
          ∃ nb2, getNodeAt (nodes.set ci.toNat cur2 ++ [nn]) b = some nb2 ∧
            nb2.parentIndex = nb.parentIndex := by
        intro b nb hb
        unfold getNodeAt at hb ⊢
        by_cases hbnn : 0 ≤ b
        · rw [if_pos hbnn] at hb ⊢
          have hblt : b.toNat < nodes.length := by
            by_contra hge
            rw [List.getElem?_eq_none (by omega)] at hb
            exact Option.noConfusion hb
          rw [hlook b.toNat hblt]
          by_cases hbk : ci.toNat = b.toNat
          · refine ⟨cur2, by rw [if_pos hbk], ?_⟩
            have hcn : cur = nb := by
              rw [hbk] at hsome
              rw [hsome] at hb
              exact Option.some.inj hb
            rw [← hcn]
          · exact ⟨nb, by rw [if_neg hbk]; exact hb, rfl⟩
        · rw [if_neg hbnn] at hb
          exact Option.noConfusion hb
      intro p np hnp b hbmem
      simp only at hnp
      rcases lt_trichotomy p nodes.length with hp | hp | hp
      · rw [hlook p hp] at hnp
        by_cases hpk : ci.toNat = p
        · rw [if_pos hpk] at hnp
          have hval : np = cur2 := (Option.some.inj hnp).symm
          subst hval
          have hbm : b ∈ cur.branches ∨ b = (nodes.length : Int) := by
            simpa using hbmem
          cases hbm with
          | inl hbm =>
            obtain ⟨nb, hgb, hpb⟩ :=
              hbr p cur (by rw [← hpk]; exact hsome) b hbm
            obtain ⟨nb2, hgb2, hpb2⟩ := hpres b nb hgb
            exact ⟨nb2, hgb2, by rw [hpb2, hpb]⟩
          | inr hbm =>
            subst hbm
            refine ⟨nn, ?_, ?_⟩
            · unfold getNodeAt
              rw [if_pos (by omega)]
              have : ((nodes.length : Int)).toNat = nodes.length := by omega
              rw [this, hlookn]
            · show some ci = some (p : Int)
              have : (p : Int) = ci := by omega
              rw [this]
        · rw [if_neg hpk] at hnp
          obtain ⟨nb, hgb, hpb⟩ := hbr p np hnp b hbmem
          obtain ⟨nb2, hgb2, hpb2⟩ := hpres b nb hgb
          exact ⟨nb2, hgb2, by rw [hpb2, hpb]⟩
      · subst hp
        rw [hlookn] at hnp
        have hval : np = nn := (Option.some.inj hnp).symm
        subst hval
        cases hbmem
      · rw [hlookhi p hp] at hnp
        exact Option.noConfusion hnp
  · have hexec : execute ⟨doc, nodes, ci⟩ (some cmd) now =
        ⟨applyPatch doc cmd.forward, nodes ++ [⟨cmd, none, [], now⟩],
         (nodes.length : Int)⟩ := by
      simp [execute, addHistoryNode, hc]
    rw [hexec]
    set nn : HistoryNode := ⟨cmd, none, [], now⟩ with hnn
    have hlook : ∀ (k : Nat), k < nodes.length →
        (nodes ++ [nn])[k]? = nodes[k]? := by
      intro k hk
      exact List.getElem?_append_left hk
    have hlookn : (nodes ++ [nn])[nodes.length]? = some nn := by
      rw [List.getElem?_append_right (le_refl _)]
      simp
    have hlookhi : ∀ k, nodes.length < k → (nodes ++ [nn])[k]? = none := by
      intro k hk
      apply List.getElem?_eq_none
      simp
      omega
    refine ⟨⟨by show (-1 : Int) ≤ (nodes.length : Int); omega,
      by show (nodes.length : Int) < ((nodes ++ [nn]).length : Int); simp⟩,
      ?_, ?_⟩
    · intro i ni hni
      simp only at hni
      rcases lt_trichotomy i nodes.length with hi | hi | hi
      · rw [hlook i hi] at hni
        exact hpar i ni hni
      · subst hi
        rw [hlookn] at hni
        have hval : ni = nn := (Option.some.inj hni).symm
        subst hval
        exact Or.inl rfl
      · rw [hlookhi i hi] at hni
        exact Option.noConfusion hni
    · have hpres : ∀ (b : Int) (nb : HistoryNode), getNodeAt nodes b = some nb →
          getNodeAt (nodes ++ [nn]) b = some nb := by
        intro b nb hb
        unfold getNodeAt at hb ⊢
        by_cases hbnn : 0 ≤ b
        · rw [if_pos hbnn] at hb ⊢
          have hblt : b.toNat < nodes.length := by
            by_contra hge
            rw [List.getElem?_eq_none (by omega)] at hb
            exact Option.noConfusion hb
          rw [hlook b.toNat hblt]
          exact hb
        · rw [if_neg hbnn] at hb
          exact Option.noConfusion hb
      intro p np hnp b hbmem
      simp only at hnp
      rcases lt_trichotomy p nodes.length with hp | hp | hp
      · rw [hlook p hp] at hnp
        obtain ⟨nb, hgb, hpb⟩ := hbr p np hnp b hbmem
        exact ⟨nb, hpres b nb hgb, hpb⟩
      · subst hp
        rw [hlookn] at hnp
        have hval : np = nn := (Option.some.inj hnp).symm
        subst hval
        cases hbmem
      · rw [hlookhi p hp] at hnp
        exact Option.noConfusion hnp



/-- Undoing preserves the session invariant: nodes are untouched and the new
`currentIndex` is the current node's parent (or `-1`), which is in range by
acyclicity. -/
theorem sessionInvariant_undo (s : HistoryTreeState)
    (h : sessionInvariant s) : sessionInvariant (undo s) := by
  obtain ⟨⟨hlo, hhi⟩, hpar, hbr⟩ := h
  obtain ⟨doc, nodes, ci⟩ := s
  simp only at hlo hhi hpar hbr
  unfold undo
  split
  · exact ⟨⟨hlo, hhi⟩, hpar, hbr⟩
  · next hc =>
    have hc2 : ¬ ci < 0 := hc
    cases hg : getNodeAt nodes ci with
    | none => exact ⟨⟨hlo, hhi⟩, hpar, hbr⟩
    | some node =>
      have hg2 : nodes[ci.toNat]? = some node := by
        unfold getNodeAt at hg
        rwa [if_pos (by omega)] at hg
      have hbnd : -1 ≤ getUndoTargetIndex nodes ci ∧
          getUndoTargetIndex nodes ci < (nodes.length : Int) := by
        unfold getUndoTargetIndex
        rw [if_neg hc2, hg]
        show -1 ≤ node.parentIndex.getD (-1) ∧
          node.parentIndex.getD (-1) < (nodes.length : Int)
        cases hpi : node.parentIndex with
        | none =>
          constructor
          · simp
          · simp
            omega
        | some q =>
          rcases hpar ci.toNat node hg2 with hnone | ⟨q2, heq, hq0, hqlt⟩
          · rw [hnone] at hpi
            exact Option.noConfusion hpi
          · rw [heq] at hpi
            have hqq : q2 = q := Option.some.inj hpi
            subst hqq
            constructor
            · simp
              omega
            · simp
              omega
      refine ⟨⟨?_, ?_⟩, hpar, hbr⟩
      · show (-1 : Int) ≤ getUndoTargetIndex nodes ci
        exact hbnd.1
      · show getUndoTargetIndex nodes ci < (nodes.length : Int)
        exact hbnd.2

/-- Redoing preserves the session invariant: nodes are untouched and a
non-`-1` redo target always names an existing node. -/
theorem sessionInvariant_redo (s : HistoryTreeState) (m : Option Int)
    (h : sessionInvariant s) : sessionInvariant (redo s m) := by
  obtain ⟨⟨hlo, hhi⟩, hpar, hbr⟩ := h
  obtain ⟨doc, nodes, ci⟩ := s
  simp only at hlo hhi hpar hbr
  unfold redo
  split
  · exact ⟨⟨hlo, hhi⟩, hpar, hbr⟩
  · next hne =>
    cases hg : getNodeAt nodes (getRedoTargetIndex nodes ci m) with
    | none => exact ⟨⟨hlo, hhi⟩, hpar, hbr⟩
    | some node =>
      have hbnd : 0 ≤ getRedoTargetIndex nodes ci m ∧
          (getRedoTargetIndex nodes ci m).toNat < nodes.length := by
        unfold getNodeAt at hg
        by_cases ht : 0 ≤ getRedoTargetIndex nodes ci m
        · rw [if_pos ht] at hg
          refine ⟨ht, ?_⟩
          by_contra hge
          rw [List.getElem?_eq_none (by omega)] at hg
          exact Option.noConfusion hg
        · rw [if_neg ht] at hg
          exact Option.noConfusion hg
      refine ⟨⟨?_, ?_⟩, hpar, hbr⟩
      · show (-1 : Int) ≤ getRedoTargetIndex nodes ci m
        omega
      · show getRedoTargetIndex nodes ci m < (nodes.length : Int)
        omega

/-- Any single history-tree call preserves the session invariant. -/
theorem sessionInvariant_step (s : HistoryTreeState) (op : HOp)
    (h : sessionInvariant s) : sessionInvariant (stepH s op) := by
  cases op with
  | exec c now =>
    cases c with
    | none => exact h
    | some cmd => exact sessionInvariant_execute s cmd now h
  | und => exact sessionInvariant_undo s h
  | red m => exact sessionInvariant_redo s m h

/-- Any sequence of history-tree calls preserves the session invariant. -/
theorem sessionInvariant_runH (ops : List HOp) :
    ∀ (s : HistoryTreeState), sessionInvariant s →
      sessionInvariant (runH s ops) := by
  induction ops with
  | nil => intro s h; exact h
  | cons op rest ih =>
    intro s h
    exact ih (stepH s op) (sessionInvariant_step s op h)

/-- The initial state (empty history, `currentIndex = -1`) satisfies the
session invariant. -/
theorem sessionInvariant_initialState (d : BlockArray) :
    sessionInvariant (initialState d) := by
  refine ⟨⟨by norm_num [initialState], by norm_num [initialState]⟩, ?_, ?_⟩
  · intro i ni hni
    simp [initialState] at hni
  · intro p np hnp
    simp [initialState] at hnp

/-- Claim C4: after any finite sequence of `execute`/`undo`/`redo` calls
from the initial state, every entry `b` of any node's `branches` names a node
whose `parentIndex` is the owner's index (no orphaned branch pointers), and
every `parentIndex` is null or strictly smaller than the owning node's
index. -/
theorem history_tree_invariants (d : BlockArray) (ops : List HOp) :
    branchInvariant (runH (initialState d) ops).historyNodes ∧
    parentsAcyclic (runH (initialState d) ops).historyNodes := by
  have h := sessionInvariant_runH ops (initialState d)
    (sessionInvariant_initialState d)
  refine ⟨h.2.2, ?_⟩
  intro i ni hni
  rcases h.2.1 i ni hni with hnone | ⟨q, heq, _, hqlt⟩
  · exact Or.inl hnone
  · exact Or.inr ⟨q, heq, hqlt⟩

/-- Witness for `history_tree_invariants` on a concrete call sequence
(execute, undo, execute, redo). -/
theorem history_tree_invariants_witness :
    branchInvariant (runH (initialState [blkA])
      [.exec (some sampleCmd) 1, .und, .exec (some sampleCmd) 2,
       .red none]).historyNodes ∧
    parentsAcyclic (runH (initialState [blkA])
      [.exec (some sampleCmd) 1, .und, .exec (some sampleCmd) 2,
       .red none]).historyNodes :=
  history_tree_invariants [blkA]
    [.exec (some sampleCmd) 1, .und, .exec (some sampleCmd) 2, .red none]

end Editor
